import Mathlib

/-!
Verification development for the aggregate-function runtime in
`be/src/exprs/aggregate-functions.cc`: scalar accumulators (count, sum,
min/max), the growable scratch buffer backing the text accumulators, and the
Flajolet-Martin distinct-count sketch (plain and stochastic-averaging
variants) with its merge and finalize operations.

The 256-byte sketch bitmap is modelled as a list of bytes (naturals below
256), mirroring the string slot that holds it; 32-bit rows are read and
written through the same little-endian four-byte view that the C code obtains
by casting the byte buffer to a pointer to 32-bit words.  IEEE double/float
arithmetic inside the finalize computation is idealized as exact real
arithmetic.
-/

namespace Impala

/-- number of rows of the sketch bitmap (NUM_PC_BITMAPS in the source). -/
def NUM_PC_BITMAPS : Nat := 64

/-- number of columns of each bitmap row (PC_BITMAP_LENGTH in the source). -/
def PC_BITMAP_LENGTH : Nat := 32

/-- every byte of the region is an actual byte value. -/
def bytesLt (bm : List Nat) : Prop := ∀ j : Nat, bm.getD j 0 < 256

/-- the 32-bit word of row `i`, read through the little-endian four-byte view
used by `GetDistinctEstimateBit` and `SetDistinctEstimateBit`. -/
def word (bm : List Nat) (i : Nat) : Nat :=
  bm.getD (4 * i) 0 + 256 * bm.getD (4 * i + 1) 0 +
    65536 * bm.getD (4 * i + 2) 0 + 16777216 * bm.getD (4 * i + 3) 0

/-- GetDistinctEstimateBit: whether bit `j` of row `row` is set. -/
def getBit (bm : List Nat) (row j : Nat) : Bool := (word bm row).testBit j

/-- store word `w` back into the four bytes of row `i` (the store performed by
the `|=` on the word view). -/
def setWord (bm : List Nat) (i w : Nat) : List Nat :=
  (((bm.set (4 * i) (w % 256)).set (4 * i + 1) (w / 256 % 256)).set
      (4 * i + 2) (w / 65536 % 256)).set (4 * i + 3) (w / 16777216 % 256)

/-- SetDistinctEstimateBit: or the single-bit mask into the word of the row. -/
def setBit (bm : List Nat) (row j : Nat) : List Nat :=
  setWord bm row (word bm row ||| 2 ^ j)

/-- fuel-indexed trailing-zero count, the model of the ctz builtin on nonzero
arguments. -/
def ctzGo : Nat → Nat → Nat
  | 0, _ => 0
  | f + 1, n => if n % 2 = 1 then 0 else 1 + ctzGo f (n / 2)

/-- trailing-zero count of a 32-bit value (defined for nonzero arguments). -/
def ctz32 (n : Nat) : Nat := ctzGo 32 n

/-- column chosen by PcUpdate for one hash value: the trailing-zero count of
the hash, overwritten with `PC_BITMAP_LENGTH - 1` when the hash is zero.  The
code computes the (then undefined) ctz of zero first and replaces it, so the
resulting value is always defined. -/
def pcBitIndex (h : Nat) : Nat := if h = 0 then 31 else ctz32 h

/-- the row loop of PcUpdate for a non-null input: for each row `i < 64` set
bit `(i, pcBitIndex (hs i))`, where `hs i` models the external
`AnyValUtil::Hash(input, i)` oracle. -/
def pcUpdateH (hs : Nat → Nat) (bm : List Nat) : List Nat :=
  (List.range 64).foldl (fun b i => setBit b i (pcBitIndex (hs i))) bm

/-- PcUpdate including the null test: a null input returns before touching the
bitmap. -/
def pcUpdateSV (input : Option (Nat → Nat)) (bm : List Nat) : List Nat :=
  match input with
  | none => bm
  | some hs => pcUpdateH hs bm

/-- column chosen by PcsaUpdate: the ctz builtin applied to `hash / 64`,
overwritten with 31 only when the hash itself is zero.  When
`0 < hash < 64` the division yields zero and the ctz of zero (undefined per
the GCC documentation cited in the source comment) is used unpatched; that
path is modelled as `none`. -/
def pcsaBitIndex (h : Nat) : Option Nat :=
  if h = 0 then some 31
  else if h / 64 = 0 then none
  else some (ctz32 (h / 64))

/-- PcsaUpdate for a non-null input whose seed-0 hash is `h`: row `h % 64`,
column `pcsaBitIndex h`. -/
def pcsaUpdateH (h : Nat) (bm : List Nat) : Option (List Nat) :=
  (pcsaBitIndex h).map (fun c => setBit bm (h % 64) c)

/-- the byte loop of PcMerge: or each of the 256 source bytes into the
destination. -/
def pcMergeBytes (src dst : List Nat) : List Nat :=
  (List.range 256).foldl (fun d i => d.set i (d.getD i 0 ||| src.getD i 0)) dst

/-- a StringVal: null flag plus the byte region (its len is the list length). -/
structure StrVal where
  is_null : Bool
  bytes : List Nat
deriving DecidableEq

/-- PcMerge: the debug assertions (source non-null, destination non-null,
source length exactly 256) are modelled as a fatal abort (`none`); otherwise
the byte loop runs.  The destination length is not examined by the code. -/
def pcMerge (src dst : StrVal) : Option StrVal :=
  if src.is_null then none
  else if dst.is_null then none
  else if src.bytes.length ≠ 256 then none
  else some ⟨false, pcMergeBytes src.bytes dst.bytes⟩

/-- the emptiness scan at the start of DistinceEstimateFinalize: every byte of
the region is zero. -/
def isEmptyBitmap (bm : List Nat) : Bool := bm.all (fun b => b == 0)

/-- one row of the leading-run loop of DistinceEstimateFinalize: keep
incrementing the counter while the probed bit is set and the counter is below
PC_BITMAP_LENGTH, with the probe evaluated first, exactly as in the source.
Fuel 33 suffices because the counter never passes 32.  The probe at column 32
(reachable when all 32 bits of a row are set, and undefined in the C source
because of the 32-bit shift) reads `false` here; `runFromChecked` below tracks
the partiality of that probe instead. -/
def runFrom (w : Nat) : Nat → Nat → Nat
  | c, 0 => c
  | c, f + 1 => if w.testBit c && decide (c < 32) then runFrom w (c + 1) f else c

/-- the final value of the per-row counter of the finalize loop. -/
def rowBitCount (w : Nat) : Nat := runFrom w 0 33

/-- the running sum over the 64 per-row counters in the finalize loop. -/
def sumRuns (bm : List Nat) : Nat :=
  (List.range 64).foldl (fun s i => s + rowBitCount (word bm i)) 0

/-- leading-run length as the spec words it: the run of consecutive set bits
starting at column 0, up to the first unset bit or the row width 32. -/
def leadingRun (w : Nat) : Nat :=
  ((List.range 32).takeWhile (fun j => w.testBit j)).length

/-- a bit probe together with its defined domain: the single-bit mask shift of
the C code is undefined for column indices at or above 32. -/
def getBitProbe (w c : Nat) : Option Bool :=
  if c < 32 then some (w.testBit c) else none

/-- the leading-run loop with every bit probe checked against the defined
domain of the shift: `none` means the loop evaluated a probe at a column
index outside 0..31. -/
def runFromChecked (w : Nat) : Nat → Nat → Option Nat
  | c, 0 => some c
  | c, f + 1 =>
    match getBitProbe w c with
    | none => none
    | some b => if b && decide (c < 32) then runFromChecked w (c + 1) f else some c

/-- PC_THETA, the Flajolet-Martin bias-correction constant. -/
noncomputable def PC_THETA : ℝ := 0.77351

/-- DistinceEstimateFinalize with the IEEE double arithmetic idealized as
exact real arithmetic: zero when the bitmap is all-zero, otherwise two raised
to the average counter value, divided by PC_THETA. -/
noncomputable def finalizeEstimate (bm : List Nat) : ℝ :=
  if isEmptyBitmap bm then 0
  else (2 : ℝ) ^ ((sumRuns bm : ℝ) / 64) / PC_THETA

/-- the C cast of the double estimate to a 64-bit integer: truncation toward
zero. -/
noncomputable def truncInt (x : ℝ) : Int := if 0 ≤ x then ⌊x⌋ else -⌊-x⌋

/-- the integer magnitude written out by PcFinalize. -/
noncomputable def pcResultInt (bm : List Nat) : Int := truncInt (finalizeEstimate bm)

/-- the integer magnitude written out by PcsaFinalize: the shared estimate
multiplied by the row count before the cast. -/
noncomputable def pcsaResultInt (bm : List Nat) : Int :=
  truncInt (finalizeEstimate bm * 64)

/-- fuel-indexed decimal printer for a nonnegative value (the stringstream
output), returning ASCII codes. -/
def decGo : Nat → Nat → List Nat
  | 0, _ => []
  | f + 1, n => if n < 10 then [48 + n] else decGo f (n / 10) ++ [48 + n % 10]

/-- decimal ASCII text of a natural number. -/
def decChars (n : Nat) : List Nat := decGo (n + 1) n

/-- the memcpy of the result text into the output pointer, which aliases the
bitmap: the leading bytes of the region are replaced by the text. -/
def writeOver (s bm : List Nat) : List Nat := s ++ bm.drop s.length

/-- PcFinalize: the output region (aliasing the bitmap region) and the output
length. -/
noncomputable def pcFinalizeBytes (bm : List Nat) : List Nat × Nat :=
  (writeOver (decChars (pcResultInt bm).toNat) bm,
    (decChars (pcResultInt bm).toNat).length)

/-- PcsaFinalize: same writer with the scaled estimate. -/
noncomputable def pcsaFinalizeBytes (bm : List Nat) : List Nat × Nat :=
  (writeOver (decChars (pcsaResultInt bm).toNat) bm,
    (decChars (pcsaResultInt bm).toNat).length)

/-- BigIntVal: null flag plus 64-bit value, with each native add reduced by
the two's-complement wrap below. -/
structure BigIntVal where
  is_null : Bool
  val : Int
deriving DecidableEq

/-- two's-complement reduction of an integer into the signed 64-bit range. -/
def int64wrap (z : Int) : Int := (z + 2 ^ 63) % 2 ^ 64 - 2 ^ 63

/-- InitZero: not-null zero. -/
def initZeroB : BigIntVal := ⟨false, 0⟩

/-- Sum into a BigIntVal destination: a null input is a no-op; a null
destination is zeroed first; then the input value is added to the destination
value in native (wrapping) arithmetic. -/
def sumUpd (src : Option Int) (dst : BigIntVal) : BigIntVal :=
  match src with
  | none => dst
  | some v =>
    (fun d => (⟨false, int64wrap (d.val + v)⟩ : BigIntVal))
      (if dst.is_null then initZeroB else dst)

/-- a sequence of Sum updates. -/
def sumFold (xs : List (Option Int)) (d : BigIntVal) : BigIntVal :=
  xs.foldl (fun acc x => sumUpd x acc) d

/-- read a partial accumulator as the source value of a merging Sum call. -/
def toSrc (d : BigIntVal) : Option Int := if d.is_null then none else some d.val

/-- StringValScratch: the buffer capacity plus the currently stored string.
A capacity of zero is exactly the never-allocated (null buffer) state, since
ResizeBufferTo returns without allocating whenever the requested length does
not exceed the current capacity. -/
structure Scratch where
  buflen : Nat
  bytes : List Nat
deriving DecidableEq

/-- InitScratch: a fresh StringValScratch. -/
def scratchInit : Scratch := ⟨0, []⟩

/-- the capacity growth applied by ResizeBufferTo: half again the requested
length. -/
def growLen (n : Nat) : Nat := n + n / 2

/-- StringValScratch Set: ResizeBufferTo without copying (which returns
without allocating when the requested length fits the capacity, in particular
for an empty string on a fresh scratch), then the bytes are copied in. -/
def scratchSet (s : Scratch) (v : List Nat) : Scratch :=
  if v.length ≤ s.buflen then ⟨s.buflen, v⟩ else ⟨growLen v.length, v⟩

/-- StringValScratch Append: a no-op for empty input, otherwise grow if
needed (preserving content) and copy the input at the end. -/
def scratchAppend (s : Scratch) (v : List Nat) : Scratch :=
  if v.length = 0 then s
  else if s.bytes.length + v.length > s.buflen then
    ⟨growLen (s.bytes.length + v.length), s.bytes ++ v⟩
  else ⟨s.buflen, s.bytes ++ v⟩

/-- Modelled from the spec: the byte-lexicographic total order on text used by
Min and Max over strings.  The comparison operator of StringValue lives in
`runtime/string-value.h`, which is outside `src/`; the spec fixes text
ordering as lexicographic over bytes, a shorter string preceding its
extensions. -/
def ltBytes : List Nat → List Nat → Bool
  | [], [] => false
  | [], _ :: _ => true
  | _ :: _, [] => false
  | x :: xs, y :: ys => if x < y then true else if y < x then false else ltBytes xs ys

/-- Min over StringVal: take the input when the scratch buffer was never
allocated or the input compares strictly below the currently stored bytes. -/
def minStringUpd (src : Option (List Nat)) (s : Scratch) : Scratch :=
  match src with
  | none => s
  | some v => if s.buflen = 0 || ltBytes v s.bytes then scratchSet s v else s

/-- a sequence of Min updates over text values. -/
def minStringFold (xs : List (Option (List Nat))) (s : Scratch) : Scratch :=
  xs.foldl (fun acc x => minStringUpd x acc) s

/-- SerializeScratch: null when the buffer was never allocated, otherwise the
stored bytes. -/
def serializeScratch (s : Scratch) : Option (List Nat) :=
  if s.buflen = 0 then none else some s.bytes

/-- DEFAULT_STRING_CONCAT_DELIM, the two bytes of comma-space. -/
def defaultDelim : List Nat := [44, 32]

/-- StringConcat: a null input is a no-op; an input arriving while the scratch
buffer is unallocated is Set verbatim; any later input appends the separator
(the default delimiter when the separator argument is null) and then the
input. -/
def concatUpd (src sep : Option (List Nat)) (s : Scratch) : Scratch :=
  match src with
  | none => s
  | some v =>
    if s.buflen = 0 then scratchSet s v
    else scratchAppend (scratchAppend s (sep.getD defaultDelim)) v

/-- a sequence of StringConcat calls with non-null inputs, each paired with
its (possibly null) separator argument. -/
def concatFold (calls : List (List Nat × Option (List Nat))) (s : Scratch) : Scratch :=
  calls.foldl (fun acc p => concatUpd (some p.1) p.2 acc) s

/-- the all-zero 256-byte bitmap. -/
def zeroBitmap : List Nat := List.replicate 256 0

/-- a 256-byte bitmap whose 64 rows each have exactly bit 0 set. -/
def rowOneBitmap : List Nat :=
  (List.range 256).map (fun j => if j % 4 = 0 then 1 else 0)

/-- a 256-byte bitmap whose row 0 is all ones. -/
def fullRowBitmap : List Nat := List.replicate 4 255 ++ List.replicate 252 0

theorem getD_set_self : ∀ (l : List Nat) (i v : Nat), i < l.length →
    (l.set i v).getD i 0 = v := by
  intro l
  induction l with
  | nil => intro i v h; simp at h
  | cons x t ih =>
    intro i v h
    cases i with
    | zero => rfl
    | succ n => exact ih n v (by simpa using h)

theorem getD_set_diff : ∀ (l : List Nat) (i j v : Nat), i ≠ j →
    (l.set i v).getD j 0 = l.getD j 0 := by
  intro l
  induction l with
  | nil => intro i j v _; simp
  | cons x t ih =>
    intro i j v hij
    cases i with
    | zero =>
      cases j with
      | zero => exact absurd rfl hij
      | succ m => rfl
    | succ n =>
      cases j with
      | zero => rfl
      | succ m => exact ih n m v (fun h => hij (by rw [h]))

theorem getD_set_cases (l : List Nat) (i j v : Nat) :
    (l.set i v).getD j 0 = l.getD j 0 ∨ (l.set i v).getD j 0 = v := by
  by_cases hij : i = j
  · subst hij
    by_cases h : i < l.length
    · exact Or.inr (getD_set_self l i v h)
    · left
      rw [List.set_eq_of_length_le (Nat.le_of_not_lt h)]
  · exact Or.inl (getD_set_diff l i j v hij)

theorem byte_lt (bm : List Nat) (h : bytesLt bm) (j : Nat) : bm.getD j 0 < 256 := h j

theorem length_setWord (bm : List Nat) (i w : Nat) :
    (setWord bm i w).length = bm.length := by
  simp [setWord, List.length_set]

theorem bytesLt_setWord (bm : List Nat) (i w : Nat) (h : bytesLt bm) :
    bytesLt (setWord bm i w) := by
  intro j
  unfold setWord
  rcases getD_set_cases (((bm.set (4 * i) (w % 256)).set (4 * i + 1)
      (w / 256 % 256)).set (4 * i + 2) (w / 65536 % 256)) (4 * i + 3)
      j (w / 16777216 % 256) with h3 | h3
  · rw [h3]
    rcases getD_set_cases ((bm.set (4 * i) (w % 256)).set (4 * i + 1)
        (w / 256 % 256)) (4 * i + 2) j (w / 65536 % 256) with h2 | h2
    · rw [h2]
      rcases getD_set_cases (bm.set (4 * i) (w % 256)) (4 * i + 1) j
          (w / 256 % 256) with h1 | h1
      · rw [h1]
        rcases getD_set_cases bm (4 * i) j (w % 256) with h0 | h0
        · rw [h0]; exact h j
        · rw [h0]; exact Nat.mod_lt _ (by omega)
      · rw [h1]; exact Nat.mod_lt _ (by omega)
    · rw [h2]; exact Nat.mod_lt _ (by omega)
  · rw [h3]; exact Nat.mod_lt _ (by omega)

theorem word_lt (bm : List Nat) (i : Nat) (h : bytesLt bm) : word bm i < 2 ^ 32 := by
  have h0 := h (4 * i)
  have h1 := h (4 * i + 1)
  have h2 := h (4 * i + 2)
  have h3 := h (4 * i + 3)
  unfold word
  omega

theorem word_decompose (w : Nat) (hw : w < 2 ^ 32) :
    w % 256 + 256 * (w / 256 % 256) + 65536 * (w / 65536 % 256) +
      16777216 * (w / 16777216 % 256) = w := by
  omega

theorem getD_setWord_q0 (bm : List Nat) (i w : Nat) (hlen : 4 * i < bm.length) :
    (setWord bm i w).getD (4 * i) 0 = w % 256 := by
  unfold setWord
  rw [getD_set_diff _ _ _ _ (by omega), getD_set_diff _ _ _ _ (by omega),
    getD_set_diff _ _ _ _ (by omega), getD_set_self _ _ _ hlen]

theorem getD_setWord_q1 (bm : List Nat) (i w : Nat) (hlen : 4 * i + 1 < bm.length) :
    (setWord bm i w).getD (4 * i + 1) 0 = w / 256 % 256 := by
  unfold setWord
  rw [getD_set_diff _ _ _ _ (by omega), getD_set_diff _ _ _ _ (by omega),
    getD_set_self _ _ _ (by simpa using hlen)]

theorem getD_setWord_q2 (bm : List Nat) (i w : Nat) (hlen : 4 * i + 2 < bm.length) :
    (setWord bm i w).getD (4 * i + 2) 0 = w / 65536 % 256 := by
  unfold setWord
  rw [getD_set_diff _ _ _ _ (by omega),
    getD_set_self _ _ _ (by simpa using hlen)]

theorem getD_setWord_q3 (bm : List Nat) (i w : Nat) (hlen : 4 * i + 3 < bm.length) :
    (setWord bm i w).getD (4 * i + 3) 0 = w / 16777216 % 256 := by
  unfold setWord
  rw [getD_set_self _ _ _ (by simpa using hlen)]

theorem getD_setWord_other (bm : List Nat) (i w j : Nat)
    (h0 : j ≠ 4 * i) (h1 : j ≠ 4 * i + 1) (h2 : j ≠ 4 * i + 2) (h3 : j ≠ 4 * i + 3) :
    (setWord bm i w).getD j 0 = bm.getD j 0 := by
  unfold setWord
  rw [getD_set_diff _ _ _ _ (fun h => h3 h.symm), getD_set_diff _ _ _ _ (fun h => h2 h.symm),
    getD_set_diff _ _ _ _ (fun h => h1 h.symm), getD_set_diff _ _ _ _ (fun h => h0 h.symm)]

theorem word_setWord_self (bm : List Nat) (i w : Nat)
    (hlen : 4 * i + 3 < bm.length) (hw : w < 2 ^ 32) :
    word (setWord bm i w) i = w := by
  unfold word
  rw [getD_setWord_q0 _ _ _ (by omega), getD_setWord_q1 _ _ _ (by omega),
    getD_setWord_q2 _ _ _ (by omega), getD_setWord_q3 _ _ _ (by omega)]
  exact word_decompose w hw

theorem word_setWord_diff (bm : List Nat) (i i' w : Nat) (h : i ≠ i') :
    word (setWord bm i w) i' = word bm i' := by
  unfold word
  rw [getD_setWord_other _ _ _ _ (by omega) (by omega) (by omega) (by omega),
    getD_setWord_other _ _ _ _ (by omega) (by omega) (by omega) (by omega),
    getD_setWord_other _ _ _ _ (by omega) (by omega) (by omega) (by omega),
    getD_setWord_other _ _ _ _ (by omega) (by omega) (by omega) (by omega)]

theorem length_setBit (bm : List Nat) (r j : Nat) :
    (setBit bm r j).length = bm.length := length_setWord bm r _

theorem bytesLt_setBit (bm : List Nat) (r j : Nat) (h : bytesLt bm) :
    bytesLt (setBit bm r j) := bytesLt_setWord bm r _ h

theorem getBit_setBit (bm : List Nat) (r j r' c : Nat)
    (hlen : bm.length = 256) (hb : bytesLt bm) (hr : r < 64) (hj : j < 32) :
    getBit (setBit bm r j) r' c = (getBit bm r' c || decide (r' = r ∧ c = j)) := by
  by_cases hrr : r' = r
  · subst hrr
    unfold getBit setBit
    rw [word_setWord_self bm r' _ (by omega)
      (Nat.or_lt_two_pow (word_lt bm r' hb) (Nat.pow_lt_pow_right (by omega) hj))]
    rw [Nat.testBit_lor]
    by_cases hcj : c = j
    · subst hcj
      simp [Nat.testBit_two_pow_self]
    · simp [Nat.testBit_two_pow_of_ne (fun h => hcj h.symm), hcj]
  · unfold getBit setBit
    rw [word_setWord_diff bm r r' _ (fun h => hrr h.symm)]
    simp [hrr]

theorem foldl_setBit_getBit :
    ∀ (rows : List Nat) (bm : List Nat) (f : Nat → Nat), rows.Nodup →
      (∀ i ∈ rows, i < 64) → (∀ i ∈ rows, f i < 32) →
      bm.length = 256 → bytesLt bm → ∀ r c,
      getBit (rows.foldl (fun b i => setBit b i (f i)) bm) r c
        = (getBit bm r c || decide (r ∈ rows ∧ c = f r)) := by
  intro rows
  induction rows with
  | nil => intro bm f _ _ _ _ _ r c; simp
  | cons i t ih =>
    intro bm f hnd hlt hflt hlen hb r c
    have hstep : List.foldl (fun b i => setBit b i (f i)) bm (i :: t)
        = List.foldl (fun b i => setBit b i (f i)) (setBit bm i (f i)) t := rfl
    rw [hstep, ih (setBit bm i (f i)) f (List.Nodup.of_cons hnd)
      (fun x hx => hlt x (List.mem_cons_of_mem i hx))
      (fun x hx => hflt x (List.mem_cons_of_mem i hx))
      (by rw [length_setBit]; exact hlen) (bytesLt_setBit bm i (f i) hb)]
    rw [getBit_setBit bm i (f i) r c hlen hb (hlt i (List.mem_cons_self i t))
      (hflt i (List.mem_cons_self i t))]
    by_cases hri : r = i
    · subst hri
      have hnt : r ∉ t := (List.nodup_cons.mp hnd).1
      by_cases hcf : c = f r
      · simp [hcf, hnt]
      · simp [hcf]
    · have : (r ∈ i :: t) = (r ∈ t) := by
        simp [List.mem_cons, hri]
      simp [hri, this]

theorem ctzGo_lt : ∀ (f n : Nat), n ≠ 0 → n < 2 ^ f → ctzGo f n < f := by
  intro f
  induction f with
  | zero => intro n h0 h1; omega
  | succ g ih =>
    intro n h0 h1
    unfold ctzGo
    by_cases hodd : n % 2 = 1
    · simp [hodd]
    · have hne : n / 2 ≠ 0 := by omega
      have hlt : n / 2 < 2 ^ g := by
        rw [pow_succ] at h1; omega
      simp only [hodd, if_false]
      have := ih (n / 2) hne hlt
      omega

theorem pcBitIndex_lt (h : Nat) (hh : h < 2 ^ 32) : pcBitIndex h < 32 := by
  unfold pcBitIndex
  by_cases h0 : h = 0
  · simp [h0]
  · simp only [h0, if_false]
    exact ctzGo_lt 32 h h0 hh

theorem foldl_setBit_length :
    ∀ (rows : List Nat) (bm : List Nat) (f : Nat → Nat),
      (rows.foldl (fun b i => setBit b i (f i)) bm).length = bm.length := by
  intro rows
  induction rows with
  | nil => intro bm f; rfl
  | cons i t ih =>
    intro bm f
    have hstep : List.foldl (fun b i => setBit b i (f i)) bm (i :: t)
        = List.foldl (fun b i => setBit b i (f i)) (setBit bm i (f i)) t := rfl
    rw [hstep, ih, length_setBit]

theorem bytesLt_of_all (bm : List Nat)
    (h : bm.all (fun b => decide (b < 256)) = true) : bytesLt bm := by
  intro j
  by_cases hj : j < bm.length
  · rw [List.getD_eq_getElem _ _ hj]
    have := List.all_eq_true.mp h _ (List.getElem_mem hj)
    simpa using this
  · rw [List.getD_eq_default _ _ (Nat.le_of_not_lt hj)]
    omega

/-- C2: for every non-null input value and every 256-byte bitmap, the
plain-variant Update sets, for each row index `r` in 0..63, exactly the bit
`(r, c)` with `c` the trailing-zero count of the hash of the input seeded with
`r` (column 31 when that hash is zero) — every other bit keeps its previous
value; a null input leaves the bitmap unchanged; no bit is ever cleared; the
byte region keeps its length. -/
theorem c2_pc_update_bits (hs : Nat → Nat) (bm : List Nat)
    (h1 : bm.length = 256) (h2 : bytesLt bm) (h3 : ∀ i, hs i < 2 ^ 32) :
    (∀ r c, r < 64 →
        getBit (pcUpdateH hs bm) r c
          = (getBit bm r c || decide (c = pcBitIndex (hs r))))
    ∧ (∀ r c, getBit bm r c = true → getBit (pcUpdateH hs bm) r c = true)
    ∧ pcUpdateSV none bm = bm
    ∧ (pcUpdateH hs bm).length = 256 := by
  have key := foldl_setBit_getBit (List.range 64) bm (fun i => pcBitIndex (hs i))
    (List.nodup_range 64) (fun i hi => List.mem_range.mp hi)
    (fun i _ => pcBitIndex_lt (hs i) (h3 i)) h1 h2
  refine ⟨?_, ?_, rfl, ?_⟩
  · intro r c hr
    rw [show pcUpdateH hs bm
        = (List.range 64).foldl (fun b i => setBit b i (pcBitIndex (hs i))) bm from rfl]
    rw [key r c]
    have hmem : r ∈ List.range 64 := List.mem_range.mpr hr
    simp [hmem]
  · intro r c hset
    rw [show pcUpdateH hs bm
        = (List.range 64).foldl (fun b i => setBit b i (pcBitIndex (hs i))) bm from rfl]
    rw [key r c, hset]
    rfl
  · rw [show pcUpdateH hs bm
        = (List.range 64).foldl (fun b i => setBit b i (pcBitIndex (hs i))) bm from rfl]
    rw [foldl_setBit_length]
    exact h1

set_option maxRecDepth 10000 in
/-- witness for C2 at the all-zero bitmap and the constant hash oracle 5. -/
theorem c2_pc_update_bits_witness :
    (zeroBitmap.length = 256 ∧ bytesLt zeroBitmap
      ∧ (∀ i : Nat, (fun _ : Nat => 5) i < 2 ^ 32))
    ∧ ((∀ r c, r < 64 →
          getBit (pcUpdateH (fun _ : Nat => 5) zeroBitmap) r c
            = (getBit zeroBitmap r c || decide (c = pcBitIndex ((fun _ : Nat => 5) r))))
      ∧ (∀ r c, getBit zeroBitmap r c = true →
          getBit (pcUpdateH (fun _ : Nat => 5) zeroBitmap) r c = true)
      ∧ pcUpdateSV none zeroBitmap = zeroBitmap
      ∧ (pcUpdateH (fun _ : Nat => 5) zeroBitmap).length = 256) := by
  have hlen : zeroBitmap.length = 256 := by decide
  have hb : bytesLt zeroBitmap := bytesLt_of_all zeroBitmap (by decide)
  have hh : ∀ i : Nat, (fun _ : Nat => 5) i < 2 ^ 32 := fun _ => by norm_num
  exact ⟨⟨hlen, hb, hh⟩, c2_pc_update_bits (fun _ : Nat => 5) zeroBitmap hlen hb hh⟩

/-- C3: the stochastic-averaging Update applies the ctz builtin to
`hash / 64`, and the column-31 substitution only covers a hash of exactly
zero; for the hash value 1 the division yields zero and the undefined ctz of
zero is used, so the column computation is not well-defined there.  This
evaluation exhibits that path. -/
theorem c3_pcsa_ctz_zero_arg : pcsaUpdateH 1 zeroBitmap = none := by decide

/-- C7: Min over the text inputs (empty string, then the byte string x)
serializes to x even though the empty string is strictly smaller in the
byte-lexicographic order — an empty winner leaves the scratch buffer
unallocated, which the next update mistakes for the no-winner state. -/
theorem c7_min_string_empty_bug :
    serializeScratch (minStringFold [some [], some [120]] scratchInit) = some [120]
    ∧ ltBytes [] [120] = true := by decide

/-- C10: on a bitmap whose row 0 has all 32 bits set, the finalize counting
loop evaluates the bit probe at column index 32 (an undefined 32-bit shift in
the source) before the bound test can stop it. -/
theorem c10_leading_run_probe_out_of_range :
    runFromChecked (word fullRowBitmap 0) 0 33 = none := by decide

set_option maxRecDepth 10000 in
/-- C5 counterexample: a Merge whose destination bitmap region is 300 bytes
long (not 256) is processed normally — only the source length is checked —
contradicting the claim that any mismatched bitmap length aborts. -/
theorem c5_merge_length_tolerated_cex :
    (pcMerge ⟨false, List.replicate 256 0⟩ ⟨false, List.replicate 300 0⟩).isSome
      = true := by decide

/-- C5 amended: the abort that does exist — PcMerge checks, by debug
assertion, that both operands are non-null and that the source region is
exactly 256 bytes, and aborts when the source length differs. -/
theorem c5_merge_src_length_abort (src dst : StrVal)
    (h1 : src.is_null = false) (h2 : dst.is_null = false)
    (h3 : src.bytes.length ≠ 256) : pcMerge src dst = none := by
  simp [pcMerge, h1, h2, h3]

/-- witness for the amended C5 at a zero-length source region. -/
theorem c5_merge_src_length_abort_witness :
    ((StrVal.mk false []).is_null = false ∧ (StrVal.mk false []).is_null = false
      ∧ (StrVal.mk false []).bytes.length ≠ 256)
    ∧ pcMerge ⟨false, []⟩ ⟨false, []⟩ = none := by
  refine ⟨⟨rfl, rfl, by decide⟩, ?_⟩
  exact c5_merge_src_length_abort ⟨false, []⟩ ⟨false, []⟩ rfl rfl (by decide)

theorem foldl_orSet_length :
    ∀ (ixs : List Nat) (d src : List Nat),
      ((ixs.foldl (fun acc i => acc.set i (acc.getD i 0 ||| src.getD i 0)) d)).length
        = d.length := by
  intro ixs
  induction ixs with
  | nil => intro d src; rfl
  | cons i t ih =>
    intro d src
    have hstep : List.foldl (fun acc i => acc.set i (acc.getD i 0 ||| src.getD i 0))
        d (i :: t)
        = List.foldl (fun acc i => acc.set i (acc.getD i 0 ||| src.getD i 0))
          (d.set i (d.getD i 0 ||| src.getD i 0)) t := rfl
    rw [hstep, ih, List.length_set]

theorem foldl_orSet_getD :
    ∀ (ixs : List Nat) (d src : List Nat), ixs.Nodup →
      (∀ i ∈ ixs, i < d.length) → ∀ j,
      ((ixs.foldl (fun acc i => acc.set i (acc.getD i 0 ||| src.getD i 0)) d)).getD j 0
        = if j ∈ ixs then d.getD j 0 ||| src.getD j 0 else d.getD j 0 := by
  intro ixs
  induction ixs with
  | nil => intro d src _ _ j; simp
  | cons i t ih =>
    intro d src hnd hbnd j
    have hstep : List.foldl (fun acc i => acc.set i (acc.getD i 0 ||| src.getD i 0))
        d (i :: t)
        = List.foldl (fun acc i => acc.set i (acc.getD i 0 ||| src.getD i 0))
          (d.set i (d.getD i 0 ||| src.getD i 0)) t := rfl
    have hset : ∀ k, k ∈ t → k < (d.set i (d.getD i 0 ||| src.getD i 0)).length := by
      intro k hk
      rw [List.length_set]
      exact hbnd k (List.mem_cons_of_mem i hk)
    rw [hstep, ih (d.set i (d.getD i 0 ||| src.getD i 0)) src
      (List.Nodup.of_cons hnd) hset j]
    by_cases hji : j = i
    · subst hji
      have hnt : j ∉ t := (List.nodup_cons.mp hnd).1
      rw [if_neg hnt, if_pos (List.mem_cons_self j t)]
      exact getD_set_self d j _ (hbnd j (List.mem_cons_self j t))
    · rw [getD_set_diff d i j _ (fun h => hji h.symm)]
      by_cases hjt : j ∈ t
      · rw [if_pos hjt, if_pos (List.mem_cons_of_mem i hjt)]
      · rw [if_neg hjt, if_neg (by simp [List.mem_cons, hji, hjt])]

theorem pcMergeBytes_length (src dst : List Nat) :
    (pcMergeBytes src dst).length = dst.length := foldl_orSet_length _ dst src

theorem pcMergeBytes_getD (src dst : List Nat) (hd : dst.length = 256) (j : Nat) :
    (pcMergeBytes src dst).getD j 0
      = if j < 256 then dst.getD j 0 ||| src.getD j 0 else dst.getD j 0 := by
  unfold pcMergeBytes
  rw [foldl_orSet_getD (List.range 256) dst src (List.nodup_range 256)
    (fun i hi => by rw [hd]; exact List.mem_range.mp hi) j]
  by_cases hj : j < 256
  · rw [if_pos (List.mem_range.mpr hj), if_pos hj]
  · rw [if_neg (fun h => hj (List.mem_range.mp h)), if_neg hj]

theorem zipWith_lor_self : ∀ (l : List Nat),
    List.zipWith (fun d s => d ||| s) l l = l := by
  intro l
  induction l with
  | nil => rfl
  | cons x t ih => simp [List.zipWith, Nat.or_self, ih]

theorem pcMergeBytes_eq_zipWith (src dst : List Nat)
    (hs : src.length = 256) (hd : dst.length = 256) :
    pcMergeBytes src dst = List.zipWith (fun d s => d ||| s) dst src := by
  apply List.ext_getElem
  · rw [pcMergeBytes_length, List.length_zipWith, hs, hd]
    rfl
  · intro n h1 h2
    have hn : n < 256 := by
      rw [pcMergeBytes_length, hd] at h1
      exact h1
    have hget := pcMergeBytes_getD src dst hd n
    rw [if_pos hn] at hget
    rw [← List.getD_eq_getElem (pcMergeBytes src dst) 0 h1]
    rw [hget, List.getElem_zipWith]
    rw [List.getD_eq_getElem dst 0 (by omega), List.getD_eq_getElem src 0 (by omega)]

/-- C4: Sketch Merge is the byte-wise or of the source bitmap into the
destination, and on 256-byte bitmaps it is commutative (merging A into B
leaves the same contents as merging B into A) and idempotent (merging A into
A leaves A unchanged). -/
theorem c4_merge_comm_idem (A B : List Nat)
    (hA : A.length = 256) (hB : B.length = 256) :
    pcMergeBytes A B = List.zipWith (fun d s => d ||| s) B A
    ∧ pcMergeBytes A B = pcMergeBytes B A
    ∧ pcMergeBytes A A = A := by
  refine ⟨pcMergeBytes_eq_zipWith A B hA hB, ?_, ?_⟩
  · rw [pcMergeBytes_eq_zipWith A B hA hB, pcMergeBytes_eq_zipWith B A hB hA]
    exact List.zipWith_comm_of_comm _ Nat.lor_comm B A
  · rw [pcMergeBytes_eq_zipWith A A hA hA]
    exact zipWith_lor_self A

set_option maxRecDepth 10000 in
/-- witness for C4 at two constant bitmaps. -/
theorem c4_merge_comm_idem_witness :
    ((List.replicate 256 3 : List Nat).length = 256
      ∧ (List.replicate 256 5 : List Nat).length = 256)
    ∧ (pcMergeBytes (List.replicate 256 3) (List.replicate 256 5)
        = List.zipWith (fun d s => d ||| s) (List.replicate 256 5) (List.replicate 256 3)
      ∧ pcMergeBytes (List.replicate 256 3) (List.replicate 256 5)
        = pcMergeBytes (List.replicate 256 5) (List.replicate 256 3)
      ∧ pcMergeBytes (List.replicate 256 3) (List.replicate 256 3)
        = List.replicate 256 3) := by
  refine ⟨⟨by decide, by decide⟩, ?_⟩
  exact c4_merge_comm_idem (List.replicate 256 3) (List.replicate 256 5)
    (by decide) (by decide)

theorem int64wrap_add_left (a b : Int) :
    int64wrap (int64wrap a + b) = int64wrap (a + b) := by
  unfold int64wrap
  have h64 : (2 : Int) ^ 64 = 18446744073709551616 := by norm_num
  have h63 : (2 : Int) ^ 63 = 9223372036854775808 := by norm_num
  rw [h64, h63]
  omega

theorem int64wrap_add_right (a b : Int) :
    int64wrap (a + int64wrap b) = int64wrap (a + b) := by
  unfold int64wrap
  have h64 : (2 : Int) ^ 64 = 18446744073709551616 := by norm_num
  have h63 : (2 : Int) ^ 63 = 9223372036854775808 := by norm_num
  rw [h64, h63]
  omega

theorem int64wrap_zero : int64wrap 0 = 0 := by decide

theorem sumFold_wrap : ∀ (xs : List (Option Int)) (v : Int),
    sumFold xs ⟨false, int64wrap v⟩
      = ⟨false, int64wrap (v + (xs.filterMap id).sum)⟩ := by
  intro xs
  induction xs with
  | nil => intro v; simp [sumFold]
  | cons x t ih =>
    intro v
    cases x with
    | none =>
      have hstep : sumFold (none :: t) ⟨false, int64wrap v⟩
          = sumFold t ⟨false, int64wrap v⟩ := rfl
      rw [hstep, ih]
      simp [List.filterMap]
    | some a =>
      have hstep : sumFold (some a :: t) ⟨false, int64wrap v⟩
          = sumFold t ⟨false, int64wrap (int64wrap v + a)⟩ := rfl
      rw [hstep, int64wrap_add_left, ih]
      have : v + a + (t.filterMap id).sum = v + (a + (t.filterMap id).sum) := by ring
      simp [List.filterMap, this]

theorem sumFold_initZero (xs : List (Option Int)) :
    sumFold xs initZeroB = ⟨false, int64wrap ((xs.filterMap id).sum)⟩ := by
  have h0 : initZeroB = BigIntVal.mk false (int64wrap 0) := by
    rw [int64wrap_zero]
    rfl
  rw [h0, sumFold_wrap]
  simp

/-- C6: Sum updates starting from the zero-initialized accumulator: null
inputs are no-ops, the final state is never null and its value is the
arithmetic sum of the non-null inputs reduced to the signed 64-bit range,
independent of the order of updates and of any split of the sequence into two
partitions folded separately and recombined by a merging Sum call; the inputs
3, null, 7, 2 yield exactly 12. -/
theorem c6_sum_accumulator (xs ys zs : List (Option Int))
    (hp : xs.Perm (ys ++ zs)) :
    (sumFold xs initZeroB).is_null = false
    ∧ (sumFold xs initZeroB).val = int64wrap ((xs.filterMap id).sum)
    ∧ sumUpd (toSrc (sumFold zs initZeroB)) (sumFold ys initZeroB)
        = sumFold xs initZeroB
    ∧ sumFold [some 3, none, some 7, some 2] initZeroB = ⟨false, 12⟩ := by
  have hx := sumFold_initZero xs
  have hy := sumFold_initZero ys
  have hz := sumFold_initZero zs
  have hsum : ((ys ++ zs).filterMap id).sum = (xs.filterMap id).sum :=
    ((hp.filterMap id).sum_eq).symm
  rw [List.filterMap_append, List.sum_append] at hsum
  refine ⟨by rw [hx], by rw [hx], ?_, by decide⟩
  rw [hx, hy, hz]
  have htoSrc : toSrc ⟨false, int64wrap ((zs.filterMap id).sum)⟩
      = some (int64wrap ((zs.filterMap id).sum)) := rfl
  rw [htoSrc]
  have hupd : sumUpd (some (int64wrap ((zs.filterMap id).sum)))
      ⟨false, int64wrap ((ys.filterMap id).sum)⟩
      = ⟨false, int64wrap (int64wrap ((ys.filterMap id).sum)
          + int64wrap ((zs.filterMap id).sum))⟩ := rfl
  rw [hupd, int64wrap_add_left, int64wrap_add_right, hsum]

/-- witness for C6 at a singleton input list and the trivial split. -/
theorem c6_sum_accumulator_witness :
    (([some 1] : List (Option Int)).Perm ([some 1] ++ []))
    ∧ ((sumFold [some 1] initZeroB).is_null = false
      ∧ (sumFold [some 1] initZeroB).val
          = int64wrap ((([some 1] : List (Option Int)).filterMap id).sum)
      ∧ sumUpd (toSrc (sumFold [] initZeroB)) (sumFold [some 1] initZeroB)
          = sumFold [some 1] initZeroB
      ∧ sumFold [some 3, none, some 7, some 2] initZeroB = ⟨false, 12⟩) := by
  have hp : ([some 1] : List (Option Int)).Perm ([some 1] ++ []) :=
    List.Perm.refl _
  exact ⟨hp, c6_sum_accumulator [some 1] [some 1] [] hp⟩

theorem scratchAppend_bytes (s : Scratch) (v : List Nat) :
    (scratchAppend s v).bytes = s.bytes ++ v := by
  unfold scratchAppend
  by_cases h0 : v.length = 0
  · rw [if_pos h0, List.length_eq_zero.mp h0, List.append_nil]
  · rw [if_neg h0]
    by_cases hgrow : s.bytes.length + v.length > s.buflen
    · rw [if_pos hgrow]
    · rw [if_neg hgrow]

theorem scratchAppend_buflen (s : Scratch) (v : List Nat) :
    s.buflen ≤ (scratchAppend s v).buflen := by
  unfold scratchAppend
  by_cases h0 : v.length = 0
  · rw [if_pos h0]
  · rw [if_neg h0]
    by_cases hgrow : s.bytes.length + v.length > s.buflen
    · rw [if_pos hgrow]
      show s.buflen ≤ growLen (s.bytes.length + v.length)
      unfold growLen
      omega
    · rw [if_neg hgrow]

theorem concatFold_pos :
    ∀ (rest : List (List Nat × Option (List Nat))) (s : Scratch), 0 < s.buflen →
      (concatFold rest s).bytes
          = s.bytes ++ rest.flatMap (fun p => p.2.getD defaultDelim ++ p.1)
        ∧ 0 < (concatFold rest s).buflen := by
  intro rest
  induction rest with
  | nil => intro s hs; exact ⟨(List.append_nil s.bytes).symm, hs⟩
  | cons p t ih =>
    intro s hs
    have hstep : concatFold (p :: t) s = concatFold t (concatUpd (some p.1) p.2 s) := rfl
    have hupd : concatUpd (some p.1) p.2 s
        = scratchAppend (scratchAppend s (p.2.getD defaultDelim)) p.1 := by
      show (if s.buflen = 0 then scratchSet s p.1
          else scratchAppend (scratchAppend s (p.2.getD defaultDelim)) p.1)
        = scratchAppend (scratchAppend s (p.2.getD defaultDelim)) p.1
      rw [if_neg (by omega)]
    have hbytes : (concatUpd (some p.1) p.2 s).bytes
        = s.bytes ++ (p.2.getD defaultDelim ++ p.1) := by
      rw [hupd, scratchAppend_bytes, scratchAppend_bytes, List.append_assoc]
    have hbuf : 0 < (concatUpd (some p.1) p.2 s).buflen := by
      rw [hupd]
      have h1 := scratchAppend_buflen s (p.2.getD defaultDelim)
      have h2 := scratchAppend_buflen (scratchAppend s (p.2.getD defaultDelim)) p.1
      omega
    rw [hstep]
    rcases ih (concatUpd (some p.1) p.2 s) hbuf with ⟨hb, hl⟩
    refine ⟨?_, hl⟩
    rw [hb, hbytes, List.flatMap_cons, List.append_assoc]

/-- C8 counterexample: concatenating the empty string and then the byte
string x with separator the byte 59 accumulates just x, not
empty plus separator plus x as the claim states — the leading empty input
leaves the scratch buffer unallocated, so the next call re-Sets instead of
appending the separator. -/
theorem c8_concat_leading_empty_cex :
    serializeScratch (concatFold [([], some [59]), ([120], some [59])] scratchInit)
      ≠ some ([] ++ [59] ++ [120]) := by decide

/-- C8 amended: provided the first input is non-empty, the accumulated bytes
equal the first input followed, for each later call, by that call's separator
(the default delimiter for a null separator argument) and its input; null
inputs are no-ops.  (A leading run of empty inputs is instead dropped
together with its separators, as the counterexample shows.) -/
theorem c8_concat_amended (v1 : List Nat) (s1 : Option (List Nat))
    (rest : List (List Nat × Option (List Nat))) (hv : v1 ≠ []) :
    serializeScratch (concatFold ((v1, s1) :: rest) scratchInit)
      = some (v1 ++ rest.flatMap (fun p => p.2.getD defaultDelim ++ p.1))
    ∧ (∀ sep s, concatUpd none sep s = s) := by
  have hlen : 0 < v1.length := List.length_pos.mpr hv
  have hstep : concatFold ((v1, s1) :: rest) scratchInit
      = concatFold rest (concatUpd (some v1) s1 scratchInit) := rfl
  have hupd : concatUpd (some v1) s1 scratchInit = ⟨growLen v1.length, v1⟩ := by
    show scratchSet scratchInit v1 = ⟨growLen v1.length, v1⟩
    show (if v1.length ≤ scratchInit.buflen then
        (⟨scratchInit.buflen, v1⟩ : Scratch) else ⟨growLen v1.length, v1⟩)
      = ⟨growLen v1.length, v1⟩
    have hb0 : scratchInit.buflen = 0 := rfl
    rw [if_neg (by omega)]
  have hbuf : 0 < (⟨growLen v1.length, v1⟩ : Scratch).buflen := by
    unfold growLen
    simp only
    omega
  rcases concatFold_pos rest ⟨growLen v1.length, v1⟩ hbuf with ⟨hb, hl⟩
  constructor
  · rw [hstep, hupd]
    unfold serializeScratch
    rw [if_neg (by omega), hb]
  · intro sep s
    rfl

/-- witness for the amended C8: inputs a then b, the second with a null
separator, produce a comma-space b appended to a. -/
theorem c8_concat_amended_witness :
    ([97] : List Nat) ≠ []
    ∧ (serializeScratch (concatFold [([97], none), ([98], none)] scratchInit)
        = some ([97] ++ ([([98], (none : Option (List Nat)))] : List (List Nat × Option (List Nat))).flatMap
            (fun p => p.2.getD defaultDelim ++ p.1))
      ∧ (∀ sep s, concatUpd none sep s = s)) := by
  refine ⟨by decide, ?_⟩
  exact c8_concat_amended [97] none [([98], none)] (by decide)

theorem runFrom_eq_takeWhile : ∀ (w f c : Nat),
    runFrom w c f = c + ((List.range' c f).takeWhile
      (fun j => w.testBit j && decide (j < 32))).length := by
  intro w f
  induction f with
  | zero => intro c; simp [runFrom]
  | succ g ih =>
    intro c
    have hr : List.range' c (g + 1) = c :: List.range' (c + 1) g := List.range'_succ c g 1
    have hstep : runFrom w c (g + 1)
        = if w.testBit c && decide (c < 32) then runFrom w (c + 1) g else c := rfl
    rw [hstep, hr]
    by_cases hp : (w.testBit c && decide (c < 32)) = true
    · rw [if_pos hp, ih (c + 1)]
      simp only [List.takeWhile_cons, hp, if_true, List.length_cons]
      omega
    · rw [if_neg hp]
      have hp2 : (w.testBit c && decide (c < 32)) = false := Bool.eq_false_iff.mpr hp
      simp only [List.takeWhile_cons, hp2, Bool.false_eq_true, if_false, List.length_nil]
      omega

theorem takeWhile_congr_on : ∀ (l : List Nat) (p q : Nat → Bool),
    (∀ x ∈ l, p x = q x) → l.takeWhile p = l.takeWhile q := by
  intro l
  induction l with
  | nil => intro p q _; rfl
  | cons x t ih =>
    intro p q h
    have hx := h x (List.mem_cons_self x t)
    simp only [List.takeWhile_cons, hx]
    by_cases hq : q x = true
    · rw [hq]
      simp only [if_pos rfl]
      rw [ih p q (fun y hy => h y (List.mem_cons_of_mem x hy))]
    · have hq2 : q x = false := Bool.eq_false_iff.mpr hq
      rw [hq2]
      rfl

theorem takeWhile_append_single : ∀ (l : List Nat) (p : Nat → Bool) (a : Nat),
    p a = false → (l ++ [a]).takeWhile p = l.takeWhile p := by
  intro l
  induction l with
  | nil =>
    intro p a hpa
    simp [List.takeWhile_cons, hpa]
  | cons x t ih =>
    intro p a hpa
    simp only [List.cons_append, List.takeWhile_cons]
    by_cases hx : p x = true
    · rw [hx]
      simp only [if_pos rfl]
      rw [ih p a hpa]
    · have hx2 : p x = false := Bool.eq_false_iff.mpr hx
      rw [hx2]
      rfl

theorem rowBitCount_eq_leadingRun (w : Nat) : rowBitCount w = leadingRun w := by
  unfold rowBitCount leadingRun
  rw [runFrom_eq_takeWhile]
  rw [show List.range' 0 33 = List.range 33 from (List.range_eq_range' 33).symm]
  rw [show List.range 33 = List.range 32 ++ [32] from List.range_succ 32]
  rw [takeWhile_append_single _ _ 32 (by simp)]
  rw [takeWhile_congr_on (List.range 32)
    (fun j => w.testBit j && decide (j < 32)) (fun j => w.testBit j)
    (fun x hx => by simp [List.mem_range.mp hx])]
  simp

theorem foldl_add_map : ∀ (l : List Nat) (g : Nat → Nat) (s : Nat),
    l.foldl (fun a i => a + g i) s = s + (l.map g).sum := by
  intro l
  induction l with
  | nil => intro g s; simp
  | cons x t ih =>
    intro g s
    have hstep : List.foldl (fun a i => a + g i) s (x :: t)
        = List.foldl (fun a i => a + g i) (s + g x) t := rfl
    rw [hstep, ih]
    simp [List.sum_cons]
    omega

theorem sumRuns_eq_spec (bm : List Nat) :
    sumRuns bm = ((List.range 64).map (fun i => leadingRun (word bm i))).sum := by
  unfold sumRuns
  rw [foldl_add_map]
  simp only [rowBitCount_eq_leadingRun, Nat.zero_add]

/-- C1: on a 256-byte bitmap, Finalize returns exactly zero when every byte is
zero; otherwise, with avg the average over the 64 rows of the leading-run
length, the plain-variant magnitude is two to the avg divided by PC_THETA
truncated to an integer, and the stochastic-averaging magnitude is that base
estimate multiplied by 64 before truncation (IEEE rounding idealized as exact
real arithmetic). -/
theorem c1_finalize_estimate (bm : List Nat)
    (h1 : bm.length = 256) (h2 : bytesLt bm) :
    (isEmptyBitmap bm = true → pcResultInt bm = 0 ∧ pcsaResultInt bm = 0)
    ∧ (isEmptyBitmap bm = false →
        pcResultInt bm
          = truncInt ((2 : ℝ) ^
              ((((List.range 64).map (fun i => leadingRun (word bm i))).sum : ℝ) / 64)
            / PC_THETA)
        ∧ pcsaResultInt bm
          = truncInt (((2 : ℝ) ^
              ((((List.range 64).map (fun i => leadingRun (word bm i))).sum : ℝ) / 64)
            / PC_THETA) * 64)) := by
  constructor
  · intro he
    have hest : finalizeEstimate bm = 0 := by
      unfold finalizeEstimate
      rw [he]
      simp
    constructor
    · unfold pcResultInt
      rw [hest]
      unfold truncInt
      simp
    · unfold pcsaResultInt
      rw [hest]
      unfold truncInt
      simp
  · intro he
    have hest : finalizeEstimate bm
        = (2 : ℝ) ^ ((sumRuns bm : ℝ) / 64) / PC_THETA := by
      unfold finalizeEstimate
      rw [he]
      simp
    have hs : ((sumRuns bm : Nat) : ℝ)
        = ((((List.range 64).map (fun i => leadingRun (word bm i))).sum : Nat) : ℝ) := by
      rw [sumRuns_eq_spec]
    constructor
    · unfold pcResultInt
      rw [hest, hs]
    · unfold pcsaResultInt
      rw [hest, hs]

set_option maxRecDepth 10000 in
/-- witness for C1 at the all-zero bitmap. -/
theorem c1_finalize_estimate_witness :
    (zeroBitmap.length = 256 ∧ bytesLt zeroBitmap)
    ∧ ((isEmptyBitmap zeroBitmap = true
          → pcResultInt zeroBitmap = 0 ∧ pcsaResultInt zeroBitmap = 0)
      ∧ (isEmptyBitmap zeroBitmap = false →
          pcResultInt zeroBitmap
            = truncInt ((2 : ℝ) ^
                ((((List.range 64).map (fun i => leadingRun (word zeroBitmap i))).sum : ℝ) / 64)
              / PC_THETA)
          ∧ pcsaResultInt zeroBitmap
            = truncInt (((2 : ℝ) ^
                ((((List.range 64).map (fun i => leadingRun (word zeroBitmap i))).sum : ℝ) / 64)
              / PC_THETA) * 64))) := by
  have hlen : zeroBitmap.length = 256 := by decide
  have hb : bytesLt zeroBitmap := bytesLt_of_all zeroBitmap (by decide)
  exact ⟨⟨hlen, hb⟩, c1_finalize_estimate zeroBitmap hlen hb⟩

theorem decGo_len : ∀ (f n k : Nat), n < 10 ^ k → 1 ≤ k → n < 10 ^ f →
    (decGo f n).length ≤ k := by
  intro f
  induction f with
  | zero =>
    intro n k _ _ hf
    simp [decGo]
  | succ g ih =>
    intro n k hk h1 hf
    show (if n < 10 then [48 + n] else decGo g (n / 10) ++ [48 + n % 10]).length ≤ k
    by_cases h10 : n < 10
    · rw [if_pos h10]
      simpa using h1
    · rw [if_neg h10]
      have hkne : k ≠ 1 := by
        intro he
        rw [he] at hk
        exact h10 (by simpa using hk)
      have hk2 : 2 ≤ k := by omega
      have hsplit : 10 ^ k = 10 ^ (k - 1) * 10 := by
        conv_lhs => rw [show k = (k - 1) + 1 by omega]
        rw [pow_succ]
      have hdiv : n / 10 < 10 ^ (k - 1) := by
        rw [hsplit] at hk
        omega
      have hsplit2 : 10 ^ (g + 1) = 10 ^ g * 10 := pow_succ 10 g
      have hdivf : n / 10 < 10 ^ g := by
        rw [hsplit2] at hf
        omega
      have hrec := ih (n / 10) (k - 1) hdiv (by omega) hdivf
      rw [List.length_append]
      simp only [List.length_cons, List.length_nil]
      omega

theorem n_lt_ten_pow (n : Nat) : n < 10 ^ n.succ := by
  have h2 := Nat.lt_two_pow n
  have h10 : 2 ^ n ≤ 10 ^ n := Nat.pow_le_pow_left (by omega) n
  have hmono : 10 ^ n < 10 ^ n.succ :=
    Nat.pow_lt_pow_right (by omega) (Nat.lt_succ_self n)
  omega

theorem decChars_len (n k : Nat) (hk : n < 10 ^ k) (h1 : 1 ≤ k) :
    (decChars n).length ≤ k :=
  decGo_len (n + 1) n k hk h1 (n_lt_ten_pow n)

theorem takeWhile_len_le : ∀ (l : List Nat) (p : Nat → Bool),
    (l.takeWhile p).length ≤ l.length := by
  intro l
  induction l with
  | nil => intro p; simp
  | cons x t ih =>
    intro p
    rw [List.takeWhile_cons]
    by_cases hx : p x = true
    · rw [hx]
      simp only [if_true, List.length_cons]
      exact Nat.succ_le_succ (ih p)
    · rw [Bool.eq_false_iff.mpr hx]
      simp only [Bool.false_eq_true, if_false, List.length_nil, List.length_cons]
      omega

theorem leadingRun_le (w : Nat) : leadingRun w ≤ 32 := by
  unfold leadingRun
  have := takeWhile_len_le (List.range 32) (fun j => w.testBit j)
  simpa using this

theorem sum_map_le : ∀ (l : List Nat) (g : Nat → Nat) (b : Nat),
    (∀ x, g x ≤ b) → (l.map g).sum ≤ l.length * b := by
  intro l
  induction l with
  | nil => intro g b _; simp
  | cons x t ih =>
    intro g b hb
    rw [List.map_cons, List.sum_cons, List.length_cons, Nat.succ_mul]
    have h1 := ih g b hb
    have h2 := hb x
    omega

theorem sumRuns_le (bm : List Nat) : sumRuns bm ≤ 2048 := by
  rw [sumRuns_eq_spec]
  have := sum_map_le (List.range 64) (fun i => leadingRun (word bm i)) 32
    (fun x => leadingRun_le (word bm x))
  simpa using this

theorem PC_THETA_pos : (0 : ℝ) < PC_THETA := by
  unfold PC_THETA
  norm_num

theorem finalizeEstimate_nonneg (bm : List Nat) : 0 ≤ finalizeEstimate bm := by
  unfold finalizeEstimate
  by_cases he : isEmptyBitmap bm = true
  · simp [he]
  · rw [if_neg he]
    exact div_nonneg (le_of_lt (Real.rpow_pos_of_pos (by norm_num) _))
      (le_of_lt PC_THETA_pos)

theorem finalizeEstimate_lt (bm : List Nat) :
    finalizeEstimate bm < 10000000000 := by
  unfold finalizeEstimate
  by_cases he : isEmptyBitmap bm = true
  · rw [if_pos he]
    norm_num
  · rw [if_neg he]
    have hsna : (sumRuns bm : ℝ) ≤ 2048 := by
      exact_mod_cast sumRuns_le bm
    have havg : (sumRuns bm : ℝ) / 64 ≤ 32 := by
      rw [div_le_iff₀ (by norm_num : (0:ℝ) < 64)]
      linarith
    have hpow : (2 : ℝ) ^ ((sumRuns bm : ℝ) / 64) ≤ (2 : ℝ) ^ (32 : ℝ) :=
      Real.rpow_le_rpow_of_exponent_le (by norm_num) havg
    have h32 : (2 : ℝ) ^ (32 : ℝ) = 4294967296 := by
      rw [show (32 : ℝ) = ((32 : ℕ) : ℝ) by norm_num, Real.rpow_natCast]
      norm_num
    have hθ := PC_THETA_pos
    have hstep : (2 : ℝ) ^ ((sumRuns bm : ℝ) / 64) / PC_THETA
        ≤ 4294967296 / PC_THETA := by
      apply div_le_div_of_nonneg_right ?_ hθ.le
      rw [← h32]
      exact hpow
    have hlast : (4294967296 : ℝ) / PC_THETA < 10000000000 := by
      rw [div_lt_iff₀ hθ]
      unfold PC_THETA
      norm_num
    linarith

theorem truncInt_nonneg_eq (x : ℝ) (h : 0 ≤ x) : truncInt x = ⌊x⌋ := by
  unfold truncInt
  rw [if_pos h]

theorem truncDigits_le (x : ℝ) (k : Nat) (h0 : 0 ≤ x) (h1 : 1 ≤ k)
    (hlt : x < (10 : ℝ) ^ k) : (decChars (truncInt x).toNat).length ≤ k := by
  rw [truncInt_nonneg_eq x h0]
  have hfl : ⌊x⌋ < (10 : ℤ) ^ k := by
    apply Int.floor_lt.mpr
    exact_mod_cast hlt
  have htn : (⌊x⌋).toNat < 10 ^ k := by
    rw [Int.toNat_lt' (by positivity)]
    exact_mod_cast hfl
  exact decChars_len _ k htn h1

theorem getD_drop_list : ∀ (l : List Nat) (n m : Nat),
    (l.drop n).getD m 0 = l.getD (n + m) 0 := by
  intro l
  induction l with
  | nil => intro n m; simp
  | cons x t ih =>
    intro n m
    cases n with
    | zero => simp
    | succ k =>
      show (t.drop k).getD m 0 = (x :: t).getD (k + 1 + m) 0
      rw [ih k m]
      rw [show k + 1 + m = (k + m) + 1 by omega]
      rfl

theorem writeOver_getD_high (s bm : List Nat) (j : Nat) (h : s.length ≤ j) :
    (writeOver s bm).getD j 0 = bm.getD j 0 := by
  unfold writeOver
  rw [List.getD_append_right s _ 0 j h, getD_drop_list]
  rw [show s.length + (j - s.length) = j by omega]

theorem writeOver_length (s bm : List Nat) (h : s.length ≤ bm.length) :
    (writeOver s bm).length = bm.length := by
  unfold writeOver
  rw [List.length_append, List.length_drop]
  omega

set_option maxRecDepth 10000 in
/-- C9 counterexample: on the bitmap whose 64 rows each have bit 0 set — a
byte that the emptiness scan and the counting loop both read — PcFinalize
overwrites byte 0 of the very region it read with the first character of the
decimal text (the estimate is 2, so byte 0 becomes the code 50), refuting the
statement that the bytes read are left unchanged. -/
theorem c9_finalize_mutates_cex :
    (pcFinalizeBytes rowOneBitmap).1.getD 0 0 ≠ rowOneBitmap.getD 0 0 := by
  have hempty : isEmptyBitmap rowOneBitmap = false := by decide
  have hsum : sumRuns rowOneBitmap = 64 := by decide
  have hest : finalizeEstimate rowOneBitmap = 2 / PC_THETA := by
    unfold finalizeEstimate
    rw [hempty]
    simp only [Bool.false_eq_true, if_false, hsum]
    rw [show (((64 : ℕ) : ℝ) / 64) = (1 : ℝ) by norm_num]
    rw [Real.rpow_one]
  have hnn : (0 : ℝ) ≤ 2 / PC_THETA := by
    have := PC_THETA_pos
    positivity
  have hfloor : ⌊(2 : ℝ) / PC_THETA⌋ = 2 := by
    apply Int.floor_eq_iff.mpr
    constructor
    · rw [le_div_iff₀ PC_THETA_pos]
      unfold PC_THETA
      norm_num
    · rw [div_lt_iff₀ PC_THETA_pos]
      unfold PC_THETA
      norm_num
  have hres : pcResultInt rowOneBitmap = 2 := by
    unfold pcResultInt
    rw [hest, truncInt_nonneg_eq _ hnn, hfloor]
  have hbytes : (pcFinalizeBytes rowOneBitmap).1
      = writeOver (decChars (2 : Int).toNat) rowOneBitmap := by
    unfold pcFinalizeBytes
    rw [hres]
  rw [hbytes]
  have hd : decChars (2 : Int).toNat = [50] := by decide
  rw [hd]
  intro hcontra
  have h50 : (writeOver [50] rowOneBitmap).getD 0 0 = 50 := rfl
  have h1 : rowOneBitmap.getD 0 0 = 1 := by decide
  rw [h50, h1] at hcontra
  exact absurd hcontra (by decide)

/-- C9 amended: Finalize does mutate the bitmap region, in place rather than
into adjacent space: after all reads of the estimate computation are done it
overwrites the leading bytes of the same 256-byte region with the decimal
text of the truncated estimate (computed from the pre-write contents), the
text always fits inside the region, and every byte at or beyond the text
length is unchanged.  Both variants behave this way. -/
theorem c9_finalize_in_place (bm : List Nat) (h1 : bm.length = 256) :
    ((pcFinalizeBytes bm).2 ≤ 256
      ∧ (pcFinalizeBytes bm).1.length = 256
      ∧ (∀ j, (pcFinalizeBytes bm).2 ≤ j →
          (pcFinalizeBytes bm).1.getD j 0 = bm.getD j 0))
    ∧ ((pcsaFinalizeBytes bm).2 ≤ 256
      ∧ (pcsaFinalizeBytes bm).1.length = 256
      ∧ (∀ j, (pcsaFinalizeBytes bm).2 ≤ j →
          (pcsaFinalizeBytes bm).1.getD j 0 = bm.getD j 0)) := by
  have hnn := finalizeEstimate_nonneg bm
  have hlt := finalizeEstimate_lt bm
  have hplainLen : (decChars (pcResultInt bm).toNat).length ≤ 10 := by
    apply truncDigits_le (finalizeEstimate bm) 10 hnn (by norm_num)
    rw [show ((10 : ℝ) ^ (10 : ℕ)) = 10000000000 by norm_num]
    exact hlt
  have hsann : (0 : ℝ) ≤ finalizeEstimate bm * 64 := by positivity
  have hsalt : finalizeEstimate bm * 64 < (10 : ℝ) ^ (12 : ℕ) := by
    rw [show ((10 : ℝ) ^ (12 : ℕ)) = 1000000000000 by norm_num]
    nlinarith
  have hsaLen : (decChars (pcsaResultInt bm).toNat).length ≤ 12 :=
    truncDigits_le (finalizeEstimate bm * 64) 12 hsann (by norm_num) hsalt
  constructor
  · refine ⟨le_trans hplainLen (by norm_num), ?_, ?_⟩
    · show (writeOver (decChars (pcResultInt bm).toNat) bm).length = 256
      rw [writeOver_length _ bm (by omega)]
      exact h1
    · intro j hj
      show (writeOver (decChars (pcResultInt bm).toNat) bm).getD j 0 = bm.getD j 0
      exact writeOver_getD_high _ bm j hj
  · refine ⟨le_trans hsaLen (by norm_num), ?_, ?_⟩
    · show (writeOver (decChars (pcsaResultInt bm).toNat) bm).length = 256
      rw [writeOver_length _ bm (by omega)]
      exact h1
    · intro j hj
      show (writeOver (decChars (pcsaResultInt bm).toNat) bm).getD j 0 = bm.getD j 0
      exact writeOver_getD_high _ bm j hj

set_option maxRecDepth 10000 in
/-- witness for the amended C9 at the all-zero bitmap. -/
theorem c9_finalize_in_place_witness :
    zeroBitmap.length = 256
    ∧ (((pcFinalizeBytes zeroBitmap).2 ≤ 256
        ∧ (pcFinalizeBytes zeroBitmap).1.length = 256
        ∧ (∀ j, (pcFinalizeBytes zeroBitmap).2 ≤ j →
            (pcFinalizeBytes zeroBitmap).1.getD j 0 = zeroBitmap.getD j 0))
      ∧ ((pcsaFinalizeBytes zeroBitmap).2 ≤ 256
        ∧ (pcsaFinalizeBytes zeroBitmap).1.length = 256
        ∧ (∀ j, (pcsaFinalizeBytes zeroBitmap).2 ≤ j →
            (pcsaFinalizeBytes zeroBitmap).1.getD j 0 = zeroBitmap.getD j 0))) := by
  have hlen : zeroBitmap.length = 256 := by decide
  exact ⟨hlen, c9_finalize_in_place zeroBitmap hlen⟩

end Impala
